import Mathlib

/-!
Shallow embedding of the geocoding pipeline of `scrape.py`
(repository Gitalexzhong/webscrape-sira-rtw).

The script reads address rows from an HTML table, resolves each address to
latitude/longitude coordinates through a cache plus the Nominatim geocoder,
and writes the enriched rows to CSV.  The HTML parsing, the CSV library and
the geocoder itself are external collaborators; the logic modelled here is:

  * `load_geocode_cache` / `save_geocode_cache` (scrape.py lines 23-39),
    with the cache file abstracted as the list of CSV rows (the Python csv
    module round-trips rows faithfully) and Python's `float` printing and
    parsing abstracted as a pair of functions `fmt : α → String` and
    `parse : String → Option α` over the scalar type `α`;
  * the partition loop (lines 98-113) that probes every record's candidate
    list against the loaded cache;
  * the thread-pool cache-hit phase (lines 116-123), which writes each
    cache-hit index independently, so its final effect is positional;
  * the sequential network phase (lines 126-154), modelled as a state
    machine threading the mutable cache and recording a trace of effects
    (cache probes, network calls, sleeps);
  * the attach/merge and summary steps (lines 156-176).

Python floats are not embedded bit-for-bit: coordinates live in an
arbitrary type `α`, and the facts the claims need about `repr`/`float`
(that printing a finite float is non-empty and parses back to the same
value) appear as explicit hypotheses on `fmt`/`parse`.

The geocoder call `geolocator.geocode(attempt)` is an oracle
`net : String → GeoOutcome α`: it can return a location, return `None`, or
raise; `try`/`except` in the script corresponds to the `raised` outcome.
-/

set_option autoImplicit false

namespace Scrape

variable {α : Type}

/-- One parsed table row (scrape.py lines 75-87).  `fullAddress` is the
derived field stored under the key `Full address`. -/
structure Row where
  name : String
  company : String
  businessAddress : String
  suburb : String
  state : String
  postcode : String
  region : String
  phone : String
  link : String
  providerNumber : Option String
  fullAddress : String
deriving DecidableEq, Repr

/-- `full_address = f"{business_address}, {suburb}, {state} {postcode}, Australia"`
(scrape.py line 74). -/
def mkFullAddress (businessAddress suburb state postcode : String) : String :=
  businessAddress ++ ", " ++ suburb ++ ", " ++ state ++ " " ++ postcode ++ ", Australia"

/-- An output row after the attach loop (lines 156-163): all `Row` fields
except the deleted `Full address`, plus `Latitude`/`Longitude`, each of
which may be `None`. -/
structure Enriched (α : Type) where
  name : String
  company : String
  businessAddress : String
  suburb : String
  state : String
  postcode : String
  region : String
  phone : String
  link : String
  providerNumber : Option String
  latitude : Option α
  longitude : Option α
deriving DecidableEq, Repr

/-- The geocode cache: a Python `dict` from query string to coordinate
pair, modelled as an insertion-ordered association list. -/
abbrev Cache (α : Type) : Type := List (String × (α × α))

/-- `geocode_cache[attempt]` on a hit; `None` when the key is absent. -/
def dictLookup : Cache α → String → Option (α × α)
  | [], _ => none
  | (k, v) :: rest, q => if k = q then some v else dictLookup rest q

/-- `attempt in geocode_cache` (Python dict membership). -/
def dictMem (c : Cache α) (q : String) : Bool :=
  (dictLookup c q).isSome

/-- `geocode_cache[attempt] = (lat, lon)` — CPython dict assignment:
overwrite in place when the key exists, append otherwise. -/
def dictInsert : Cache α → String → (α × α) → Cache α
  | [], q, v => [(q, v)]
  | (k, w) :: rest, q, v =>
      if k = q then (q, v) :: rest else (k, w) :: dictInsert rest q v

/-- `save_geocode_cache` (lines 35-39): one CSV row `[addr, lat, lon]` per
cache entry, in dict order; the file is opened with mode `w`, so the
output is exactly these rows regardless of prior file contents. -/
def save_geocode_cache (fmt : α → String) (cache : Cache α) : List (List String) :=
  cache.map (fun p => [p.1, fmt p.2.1, fmt p.2.2])

/-- One iteration of the `load_geocode_cache` reader loop (lines 28-32):
rows without exactly three columns are skipped, as are rows whose
coordinate columns are not both non-empty (Python string truthiness);
otherwise `float(lat)` / `float(lon)` run, and a non-parseable value
raises `ValueError` to the caller. -/
def loadRow (parse : String → Option α) (cache : Cache α) (row : List String) :
    Except String (Cache α) :=
  match row with
  | [addr, lat, lon] =>
      if lat ≠ "" ∧ lon ≠ "" then
        match parse lat, parse lon with
        | some la, some lo => Except.ok (dictInsert cache addr (la, lo))
        | _, _ => Except.error "ValueError: could not convert string to float"
      else
        Except.ok cache
  | _ => Except.ok cache

/-- The reader loop of `load_geocode_cache`, threading the growing dict. -/
def loadRows (parse : String → Option α) : Cache α → List (List String) →
    Except String (Cache α)
  | cache, [] => Except.ok cache
  | cache, row :: rest =>
      match loadRow parse cache row with
      | Except.ok c => loadRows parse c rest
      | Except.error e => Except.error e

/-- `load_geocode_cache` (lines 23-33) on the rows of the cache file. -/
def load_geocode_cache (parse : String → Option α) (rows : List (List String)) :
    Except String (Cache α) :=
  loadRows parse [] rows

/-- The candidate list built (identically) at lines 99-103 and 130-134:
`[row['Full address'], f"{row['Postcode']}, Australia",
  f"{row['Suburb']}, {row['State']} {row['Postcode']}, Australia"]`. -/
def attemptsOf (r : Row) : List String :=
  [r.fullAddress,
   r.postcode ++ ", Australia",
   r.suburb ++ ", " ++ r.state ++ " " ++ r.postcode ++ ", Australia"]

/-- Outcome of one `geolocator.geocode(attempt)` call: a location with
coordinates, `None`, or an exception escaping the call. -/
inductive GeoOutcome (α : Type) where
  | found (lat lon : α)
  | noResult
  | raised
deriving DecidableEq, Repr

/-- Observable effects of the network phase: a cache probe
(`attempt in geocode_cache`, line 136), a network call (line 140), a
`time.sleep(1)` (line 148), and the end-of-run cache flush (line 176). -/
inductive Eff where
  | probe (q : String)
  | netCall (q : String)
  | sleep
  | flush
deriving DecidableEq, Repr

/-- One iteration of the inner attempts loop of the network phase
(lines 135-148).  Returns `(some coord, cache, trace)` when the loop
breaks (cache hit at line 138 or geocode success at line 144) and
`(none, cache, trace)` when it falls through to the next attempt.
The final `if` mirrors line 147: `if attempt not in geocode_cache:
time.sleep(1)` — reached only when the call did not break out. -/
def netAttempt (net : String → GeoOutcome α) (cache : Cache α) (q : String) :
    Option (α × α) × Cache α × List Eff :=
  if dictMem cache q then
    (dictLookup cache q, cache, [Eff.probe q])
  else
    match net q with
    | GeoOutcome.found lat lon =>
        (some (lat, lon), dictInsert cache q (lat, lon), [Eff.probe q, Eff.netCall q])
    | GeoOutcome.noResult =>
        (none, cache,
          [Eff.probe q, Eff.netCall q] ++ if dictMem cache q then [] else [Eff.sleep])
    | GeoOutcome.raised =>
        (none, cache,
          [Eff.probe q, Eff.netCall q] ++ if dictMem cache q then [] else [Eff.sleep])

/-- The attempts loop (lines 135-148) over a candidate list: stop at the
first attempt that breaks, otherwise continue with the updated cache;
`lat, lon` remain `None, None` when every attempt falls through. -/
def resolveAttempts (net : String → GeoOutcome α) (cache : Cache α) :
    List String → Option (α × α) × Cache α × List Eff
  | [] => (none, cache, [])
  | q :: rest =>
      match netAttempt net cache q with
      | (some c, c1, t1) => (some c, c1, t1)
      | (none, c1, t1) =>
          let s := resolveAttempts net c1 rest
          (s.1, s.2.1, t1 ++ s.2.2)

/-- The sequential network phase (lines 128-154): each `(i, row)` pair of
`zip(api_indices, api_rows)` is resolved in order, threading the shared
cache; `results[i] = (lat, lon)` is recorded with the record's original
index. -/
def networkPhase (net : String → GeoOutcome α) :
    Cache α → List (Nat × Row) → List (Nat × Option (α × α)) × Cache α × List Eff
  | cache, [] => ([], cache, [])
  | cache, (i, r) :: rest =>
      let s := resolveAttempts net cache (attemptsOf r)
      let o := networkPhase net s.2.1 rest
      ((i, s.1) :: o.1, o.2.1, s.2.2 ++ o.2.2)

/-- The partition probe for one record (lines 104-110): the first
candidate present in the loaded cache decides `cache_results[i]`. -/
def probeAttempts (cache : Cache α) : List String → Option (α × α)
  | [] => none
  | q :: rest => if dictMem cache q then dictLookup cache q else probeAttempts cache rest

/-- `cache_results[i]` for one record. -/
def cacheProbe (cache : Cache α) (r : Row) : Option (α × α) :=
  probeAttempts cache (attemptsOf r)

/-- The partition loop (lines 98-113) from start index `i`: produces the
positional `cache_results` list and the `zip(api_indices, api_rows)` list
of records with no cache-resident candidate. -/
def partitionAux (cache : Cache α) : List Row → Nat →
    List (Option (α × α)) × List (Nat × Row)
  | [], _ => ([], [])
  | r :: rs, i =>
      let s := partitionAux cache rs (i + 1)
      match cacheProbe cache r with
      | some c => (some c :: s.1, s.2)
      | none => (none :: s.1, (i, r) :: s.2)

/-- `lat, lon` as stored into `results[i]`: the resolved pair, or the
initial `None, None` when no attempt broke out (lines 129, 149). -/
def toPair : Option (α × α) → Option α × Option α
  | some c => (some c.1, some c.2)
  | none => (none, none)

/-- The network-phase writes `results[i] = (lat, lon)` (line 149), applied
to the cell list: cell `p.1` receives the written pair `toPair p.2`. -/
def writeResults (cells : List (Option (Option α × Option α))) :
    List (Nat × Option (α × α)) → List (Option (Option α × Option α))
  | [] => cells
  | p :: ws => writeResults (cells.set p.1 (some (toPair p.2))) ws

/-- Reading back the fully written `results` list: `some` when every cell
was written, `none` when some `results[i]` is still the initial `None`
(on which the unpacking `lat, lon = results[i]` would raise). -/
def seqCells {β : Type} : List (Option β) → Option (List β)
  | [] => some []
  | none :: _ => none
  | some x :: rest => (seqCells rest).map (fun l => x :: l)

/-- `lat is None or lon is None` (line 166). -/
def isMissing (p : Option α × Option α) : Bool :=
  p.1.isNone || p.2.isNone

/-- The attach loop body (lines 158-163): copy the row's fields, attach
`Latitude`/`Longitude`, drop `Full address`. -/
def attachRow (r : Row) (lat lon : Option α) : Enriched α :=
  { name := r.name, company := r.company, businessAddress := r.businessAddress,
    suburb := r.suburb, state := r.state, postcode := r.postcode,
    region := r.region, phone := r.phone, link := r.link,
    providerNumber := r.providerNumber, latitude := lat, longitude := lon }

/-- Everything the run produces that the specification talks about:
the `results` list, the enriched output rows, the `missing_coords`
count, the final in-memory cache, the rows written by the final
`save_geocode_cache`, and the effect trace of the run. -/
structure RunOutput (α : Type) where
  results : List (Option α × Option α)
  enriched : List (Enriched α)
  missingCoords : Nat
  finalCache : Cache α
  savedFile : List (List String)
  trace : List Eff
deriving DecidableEq, Repr

/-- The whole pipeline from the parsed `data` list onward
(lines 90-176).  `results` starts as `[None] * len(data)` (a cell is
`none` while unwritten); the thread-pool phase writes
`results[i] = cache_results[i]` for exactly the cache-hit indices, so its
net effect is the positional image of `cache_results`; the network phase
then writes `results[i]` for each api record.  The attach loop unpacks
`lat, lon = results[i]`, which raises on an unwritten cell — modelled by
the `Option` result (`none` = the run raises).  `missing_coords`,
the saved cache rows and the single trailing flush close the run. -/
def runPipeline (fmt : α → String) (net : String → GeoOutcome α)
    (cache₀ : Cache α) (data : List Row) : Option (RunOutput α) :=
  let part := partitionAux cache₀ data 0
  let cells₀ : List (Option (Option α × Option α)) :=
    part.1.map (fun o => o.map (fun c => (some c.1, some c.2)))
  let napi := networkPhase net cache₀ part.2
  let cells₁ := writeResults cells₀ napi.1
  match seqCells cells₁ with
  | none => none
  | some results =>
      if results.length = data.length then
        some { results := results,
               enriched := List.zipWith (fun r p => attachRow r p.1 p.2) data results,
               missingCoords := results.countP isMissing,
               finalCache := napi.2.1,
               savedFile := save_geocode_cache fmt napi.2.1,
               trace := napi.2.2 ++ [Eff.flush] }
      else none

/-- The outcome a single attempt would have against a fixed cache: the
cached pair on a hit, the geocoded pair on `found`, `none` otherwise.
Failed attempts never modify the cache, so during one record's loop every
attempt runs against the same cache and this describes each step. -/
def attemptOutcome (net : String → GeoOutcome α) (cache : Cache α) (q : String) :
    Option (α × α) :=
  if dictMem cache q then dictLookup cache q
  else
    match net q with
    | GeoOutcome.found lat lon => some (lat, lon)
    | _ => none

/-- The keys of a cache, in insertion order. -/
def dictKeys (c : Cache α) : List String :=
  c.map Prod.fst

/-- Spec-side reading of one cache-file row, following the words of the
specification: a row is accepted exactly when it has three columns, both
coordinate columns are non-empty, and both parse as numbers; it yields
the entry to add, and `none` for a row the specification says to skip. -/
def rowAccepted (parse : String → Option α) : List String → Option (String × (α × α))
  | [addr, lat, lon] =>
      if lat ≠ "" ∧ lon ≠ "" then
        match parse lat, parse lon with
        | some la, some lo => some (addr, (la, lo))
        | _, _ => none
      else none
  | _ => none

/-- A cache-file row on which the implementation raises: three columns,
both coordinate columns non-empty, at least one of them unparseable. -/
def rowPoison (parse : String → Option α) : List String → Bool
  | [_, lat, lon] =>
      !(lat == "") && !(lon == "") && ((parse lat).isNone || (parse lon).isNone)
  | _ => false

/-- A concrete scalar printer for witness instantiations of the
`fmt`/`parse` parameters (a two-value stand-in for float formatting). -/
def bitFmt : Bool → String
  | true => "1"
  | false => "0"

/-- The matching concrete scalar parser. -/
def bitParse : String → Option Bool
  | "1" => some true
  | "0" => some false
  | _ => none

/-- The query string an effect concerns, when it has one. -/
def effQuery : Eff → Option String
  | Eff.probe q => some q
  | Eff.netCall q => some q
  | Eff.sleep => none
  | Eff.flush => none

/-- Helper for `callsSeparated`: the flag records that a network call has
happened with no sleep after it yet. -/
def callsSepAux : List Eff → Bool → Bool
  | [], _ => true
  | Eff.netCall _ :: rest, owe => !owe && callsSepAux rest true
  | Eff.sleep :: rest, _ => callsSepAux rest false
  | _ :: rest, owe => callsSepAux rest owe

/-- The trace property claimed of the rate limiter: any two consecutive
network calls are separated by at least one sleep. -/
def callsSeparated (t : List Eff) : Bool :=
  callsSepAux t false

/-- `GeoOutcome.raised` collapsed to `GeoOutcome.noResult`: the view of
the geocoder in which a raising call is indistinguishable from a call
that returned no result. -/
def collapseRaised : GeoOutcome α → GeoOutcome α
  | GeoOutcome.raised => GeoOutcome.noResult
  | o => o

/-- Sample record used by concrete witness runs. -/
def wRow1 : Row :=
  { name := "Alpha Clinic", company := "Alpha", businessAddress := "1 Main St",
    suburb := "Sampletown", state := "NSW", postcode := "2000", region := "Sydney",
    phone := "111", link := "a.html", providerNumber := some "41",
    fullAddress := mkFullAddress "1 Main St" "Sampletown" "NSW" "2000" }

/-- Second sample record used by concrete witness runs. -/
def wRow2 : Row :=
  { name := "Beta Clinic", company := "Beta", businessAddress := "2 Side St",
    suburb := "Othertown", state := "VIC", postcode := "3000", region := "Melbourne",
    phone := "222", link := "b.html", providerNumber := none,
    fullAddress := mkFullAddress "2 Side St" "Othertown" "VIC" "3000" }

/-- A geocoder oracle for witness runs: finds the full address of `wRow1`
and nothing else. -/
def wNetFindFirst : String → GeoOutcome Int := fun q =>
  if q = wRow1.fullAddress then GeoOutcome.found 1 2 else GeoOutcome.noResult

/-- A geocoder oracle for witness runs: finds only the third candidate of
`wRow1` (suburb, state postcode, country). -/
def wNetFindThird : String → GeoOutcome Int := fun q =>
  if q = wRow1.suburb ++ ", " ++ wRow1.state ++ " " ++ wRow1.postcode ++ ", Australia"
  then GeoOutcome.found 5 6 else GeoOutcome.noResult

/-- A geocoder oracle that always raises. -/
def wNetRaise : String → GeoOutcome Int := fun _ => GeoOutcome.raised

/-- A geocoder oracle over the two-value scalar type, for witness runs
that also exercise the save/load parameters: finds wRow1's full address
and nothing else. -/
def wNetBool : String → GeoOutcome Bool := fun q =>
  if q = wRow1.fullAddress then GeoOutcome.found true false else GeoOutcome.noResult

section DictLemmas

theorem dictLookup_insert_self (c : Cache α) (q : String) (v : α × α) :
    dictLookup (dictInsert c q v) q = some v := by
  induction c with
  | nil => simp [dictInsert, dictLookup]
  | cons p rest ih =>
      obtain ⟨k, w⟩ := p
      by_cases h : k = q
      · simp [dictInsert, dictLookup, h]
      · simp [dictInsert, dictLookup, h, ih]

theorem dictLookup_insert_ne {k q : String} (c : Cache α) (v : α × α) (h : k ≠ q) :
    dictLookup (dictInsert c q v) k = dictLookup c k := by
  have hqk : ¬ q = k := fun hq => h hq.symm
  induction c with
  | nil => simp [dictInsert, dictLookup, hqk]
  | cons p rest ih =>
      obtain ⟨k', w⟩ := p
      by_cases h' : k' = q
      · subst h'
        simp [dictInsert, dictLookup, hqk]
      · simp only [dictInsert, if_neg h']
        by_cases h'' : k' = k
        · simp [dictLookup, h'']
        · simp [dictLookup, h'', ih]

theorem dictMem_false_iff (c : Cache α) (q : String) :
    dictMem c q = false ↔ dictLookup c q = none := by
  unfold dictMem
  cases dictLookup c q <;> simp

theorem dictMem_true_iff (c : Cache α) (q : String) :
    dictMem c q = true ↔ ∃ v, dictLookup c q = some v := by
  unfold dictMem
  cases dictLookup c q <;> simp

theorem dictInsert_of_not_mem {c : Cache α} {q : String} (v : α × α)
    (h : dictMem c q = false) : dictInsert c q v = c ++ [(q, v)] := by
  induction c with
  | nil => simp [dictInsert]
  | cons p rest ih =>
      obtain ⟨k, w⟩ := p
      rw [dictMem_false_iff] at h
      unfold dictLookup at h
      by_cases h' : k = q
      · simp [h'] at h
      · rw [dictMem_false_iff] at ih
        simp only [dictInsert, if_neg h', List.cons_append, List.cons.injEq, true_and]
        exact ih (by simpa [h'] using h)

theorem dictLookup_append (c₁ c₂ : Cache α) (q : String) :
    dictLookup (c₁ ++ c₂) q =
      match dictLookup c₁ q with
      | some v => some v
      | none => dictLookup c₂ q := by
  induction c₁ with
  | nil => simp [dictLookup]
  | cons p rest ih =>
      obtain ⟨k, w⟩ := p
      by_cases h : k = q
      · simp [dictLookup, h]
      · simp [dictLookup, h, ih]

theorem dictMem_append (c₁ c₂ : Cache α) (q : String) :
    dictMem (c₁ ++ c₂) q = (dictMem c₁ q || dictMem c₂ q) := by
  unfold dictMem
  rw [dictLookup_append]
  cases dictLookup c₁ q <;> simp

theorem not_mem_dictKeys_iff (c : Cache α) (q : String) :
    q ∉ dictKeys c ↔ dictMem c q = false := by
  rw [dictMem_false_iff]
  induction c with
  | nil => simp [dictKeys, dictLookup]
  | cons p rest ih =>
      obtain ⟨k, w⟩ := p
      by_cases h : k = q
      · simp [dictKeys, dictLookup, h]
      · simp [dictKeys, dictLookup, h, Ne.symm h, ← ih]

theorem dictKeys_insert_of_mem {c : Cache α} {q : String} (v : α × α)
    (h : dictMem c q = true) : dictKeys (dictInsert c q v) = dictKeys c := by
  induction c with
  | nil => simp [dictMem, dictLookup] at h
  | cons p rest ih =>
      obtain ⟨k, w⟩ := p
      by_cases h' : k = q
      · simp [dictInsert, dictKeys, h']
      · rw [dictMem_true_iff] at h ih
        obtain ⟨v', hv'⟩ := h
        unfold dictLookup at hv'
        rw [if_neg h'] at hv'
        have hih := ih ⟨v', hv'⟩
        simp only [dictKeys] at hih
        simp only [dictInsert, if_neg h', dictKeys, List.map_cons, hih]

theorem dictKeys_insert_of_not_mem {c : Cache α} {q : String} (v : α × α)
    (h : dictMem c q = false) : dictKeys (dictInsert c q v) = dictKeys c ++ [q] := by
  rw [dictInsert_of_not_mem v h]
  simp [dictKeys]

theorem dictKeys_insert_nodup {c : Cache α} {q : String} (v : α × α)
    (h : (dictKeys c).Nodup) : (dictKeys (dictInsert c q v)).Nodup := by
  cases hm : dictMem c q with
  | true => rw [dictKeys_insert_of_mem v hm]; exact h
  | false =>
      rw [dictKeys_insert_of_not_mem v hm]
      have hq : q ∉ dictKeys c := (not_mem_dictKeys_iff c q).mpr hm
      simp [List.nodup_append, h, hq]

end DictLemmas

section LoadSaveLemmas

theorem loadRows_save (fmt : α → String) (parse : String → Option α)
    (hrt : ∀ x, parse (fmt x) = some x) (hne : ∀ x, fmt x ≠ "") :
    ∀ (m acc : Cache α), (dictKeys m).Nodup →
      (∀ p ∈ m, dictMem acc p.1 = false) →
      loadRows parse acc (save_geocode_cache fmt m) = Except.ok (acc ++ m) := by
  intro m
  induction m with
  | nil => intro acc _ _; simp [save_geocode_cache, loadRows]
  | cons p rest ih =>
      intro acc hnd hdisj
      obtain ⟨k, v⟩ := p
      have hk : dictMem acc k = false := hdisj (k, v) (List.mem_cons_self _ _)
      have hstep :
          loadRow parse acc [k, fmt v.1, fmt v.2] = Except.ok (acc ++ [(k, v)]) := by
        have hco : fmt v.1 ≠ "" ∧ fmt v.2 ≠ "" := ⟨hne v.1, hne v.2⟩
        simp only [loadRow]
        rw [if_pos hco]
        simp only [hrt v.1, hrt v.2]
        rw [dictInsert_of_not_mem v hk]
      have hnd2 : (k :: dictKeys rest).Nodup := by
        have : dictKeys ((k, v) :: rest) = k :: dictKeys rest := rfl
        rw [this] at hnd
        exact hnd
      have hnd' : (dictKeys rest).Nodup := hnd2.of_cons
      have hknotin : k ∉ dictKeys rest := (List.nodup_cons.mp hnd2).1
      have hdisj' : ∀ p ∈ rest, dictMem (acc ++ [(k, v)]) p.1 = false := by
        intro p hp
        rw [dictMem_append]
        have h₁ : dictMem acc p.1 = false := hdisj p (List.mem_cons_of_mem _ hp)
        have h₂ : dictMem [(k, v)] p.1 = false := by
          rw [dictMem_false_iff]
          have hmem : p.1 ∈ dictKeys rest := List.mem_map_of_mem Prod.fst hp
          have hne' : ¬ k = p.1 := fun hkp => hknotin (hkp ▸ hmem)
          simp [dictLookup, hne']
        simp [h₁, h₂]
      calc loadRows parse acc (save_geocode_cache fmt ((k, v) :: rest))
          = loadRows parse (acc ++ [(k, v)]) (save_geocode_cache fmt rest) := by
            simp only [save_geocode_cache, List.map_cons, loadRows, hstep]
        _ = Except.ok ((acc ++ [(k, v)]) ++ rest) := ih (acc ++ [(k, v)]) hnd' hdisj'
        _ = Except.ok (acc ++ (k, v) :: rest) := by simp

theorem load_save_roundtrip (fmt : α → String) (parse : String → Option α)
    (hrt : ∀ x, parse (fmt x) = some x) (hne : ∀ x, fmt x ≠ "")
    (m : Cache α) (hnd : (dictKeys m).Nodup) :
    load_geocode_cache parse (save_geocode_cache fmt m) = Except.ok m := by
  have := loadRows_save fmt parse hrt hne m [] hnd (by intro p _; rfl)
  simpa [load_geocode_cache] using this

theorem loadRows_no_poison (parse : String → Option α) :
    ∀ (rows : List (List String)) (acc : Cache α),
      (∀ row ∈ rows, rowPoison parse row = false) →
      loadRows parse acc rows =
        Except.ok (rows.foldl
          (fun c row =>
            match rowAccepted parse row with
            | some p => dictInsert c p.1 p.2
            | none => c) acc) := by
  intro rows
  induction rows with
  | nil => intro acc _; simp [loadRows]
  | cons row rest ih =>
      intro acc hp
      have hrow := hp row (List.mem_cons_self _ _)
      have hrest : ∀ r ∈ rest, rowPoison parse r = false :=
        fun r hr => hp r (List.mem_cons_of_mem _ hr)
      match hshape : row with
      | [addr, lat, lon] =>
          by_cases hco : lat ≠ "" ∧ lon ≠ ""
          · match hla : parse lat, hlo : parse lon with
            | some la, some lo =>
                simp only [loadRows, loadRow, if_pos hco, hla, hlo, List.foldl_cons,
                  rowAccepted]
                exact ih _ hrest
            | some la, none =>
                exfalso
                simp [rowPoison, hla, hlo, hco.1, hco.2] at hrow
            | none, some lo =>
                exfalso
                simp [rowPoison, hla, hlo, hco.1, hco.2] at hrow
            | none, none =>
                exfalso
                simp [rowPoison, hla, hlo, hco.1, hco.2] at hrow
          · simp only [loadRows, loadRow, if_neg hco, List.foldl_cons, rowAccepted,
              if_neg hco]
            exact ih _ hrest
      | [] => simp only [loadRows, loadRow, List.foldl_cons, rowAccepted]; exact ih _ hrest
      | [a] => simp only [loadRows, loadRow, List.foldl_cons, rowAccepted]; exact ih _ hrest
      | [a, b] => simp only [loadRows, loadRow, List.foldl_cons, rowAccepted]; exact ih _ hrest
      | a :: b :: c :: d :: t =>
          simp only [loadRows, loadRow, List.foldl_cons, rowAccepted]; exact ih _ hrest

end LoadSaveLemmas

section AttemptLemmas

theorem netAttempt_of_mem {cache : Cache α} {q : String}
    (net : String → GeoOutcome α) (h : dictMem cache q = true) :
    netAttempt net cache q = (dictLookup cache q, cache, [Eff.probe q]) := by
  simp [netAttempt, h]

theorem netAttempt_found {cache : Cache α} {q : String} {a b : α}
    (net : String → GeoOutcome α) (h : dictMem cache q = false)
    (hf : net q = GeoOutcome.found a b) :
    netAttempt net cache q =
      (some (a, b), dictInsert cache q (a, b), [Eff.probe q, Eff.netCall q]) := by
  simp [netAttempt, h, hf]

theorem netAttempt_fail {cache : Cache α} {q : String}
    (net : String → GeoOutcome α) (h : dictMem cache q = false)
    (hf : ∀ a b, net q ≠ GeoOutcome.found a b) :
    netAttempt net cache q = (none, cache, [Eff.probe q, Eff.netCall q, Eff.sleep]) := by
  cases hnq : net q with
  | found a b => exact absurd hnq (hf a b)
  | noResult => simp [netAttempt, h, hnq]
  | raised => simp [netAttempt, h, hnq]

theorem attemptOutcome_none_elim {net : String → GeoOutcome α} {cache : Cache α}
    {q : String} (h : attemptOutcome net cache q = none) :
    dictMem cache q = false ∧ ∀ a b, net q ≠ GeoOutcome.found a b := by
  by_cases hm : dictMem cache q
  · rw [attemptOutcome, if_pos hm] at h
    rw [dictMem_true_iff] at hm
    obtain ⟨v, hv⟩ := hm
    rw [hv] at h
    exact absurd h (by simp)
  · refine ⟨by simpa using hm, ?_⟩
    intro a b hf
    rw [attemptOutcome, if_neg hm, hf] at h
    exact absurd h (by simp)

theorem netAttempt_of_outcome_none {net : String → GeoOutcome α} {cache : Cache α}
    {q : String} (h : attemptOutcome net cache q = none) :
    netAttempt net cache q = (none, cache, [Eff.probe q, Eff.netCall q, Eff.sleep]) := by
  obtain ⟨hm, hf⟩ := attemptOutcome_none_elim h
  exact netAttempt_fail net hm hf

theorem netAttempt_fst (net : String → GeoOutcome α) (cache : Cache α) (q : String) :
    (netAttempt net cache q).1 = attemptOutcome net cache q := by
  unfold netAttempt attemptOutcome
  cases h : dictMem cache q with
  | true => simp
  | false => cases net q <;> simp

theorem netAttempt_trace_shapes (net : String → GeoOutcome α) (cache : Cache α)
    (q : String) :
    (netAttempt net cache q).2.2 = [Eff.probe q]
    ∨ (netAttempt net cache q).2.2 = [Eff.probe q, Eff.netCall q]
    ∨ (netAttempt net cache q).2.2 = [Eff.probe q, Eff.netCall q, Eff.sleep] := by
  unfold netAttempt
  cases h : dictMem cache q with
  | true => simp
  | false => cases net q <;> simp [h]

theorem resolveAttempts_cons_fail {net : String → GeoOutcome α} {cache : Cache α}
    {q : String} (qs : List String) (h : attemptOutcome net cache q = none) :
    resolveAttempts net cache (q :: qs) =
      ((resolveAttempts net cache qs).1, (resolveAttempts net cache qs).2.1,
        [Eff.probe q, Eff.netCall q, Eff.sleep] ++ (resolveAttempts net cache qs).2.2) := by
  have hna := netAttempt_of_outcome_none h
  simp [resolveAttempts, hna]

theorem resolveAttempts_cons_succ {net : String → GeoOutcome α} {cache : Cache α}
    {q : String} {c : α × α} (qs : List String)
    (h : attemptOutcome net cache q = some c) :
    resolveAttempts net cache (q :: qs) = netAttempt net cache q := by
  have h1 : (netAttempt net cache q).1 = some c := by rw [netAttempt_fst]; exact h
  unfold resolveAttempts
  rcases hna : netAttempt net cache q with ⟨o, c1, t1⟩
  rw [hna] at h1
  simp only at h1
  subst h1
  simp

theorem resolveAttempts_take {net : String → GeoOutcome α} {cache : Cache α} :
    ∀ (qs : List String) (j : Nat) (hj : j < qs.length),
      (∀ k (hk : k < j), attemptOutcome net cache (qs.get ⟨k, hk.trans hj⟩) = none) →
      ∀ {c : α × α}, attemptOutcome net cache (qs.get ⟨j, hj⟩) = some c →
      resolveAttempts net cache qs = resolveAttempts net cache (qs.take (j + 1)) ∧
        (resolveAttempts net cache qs).1 = some c := by
  intro qs j
  induction j generalizing qs with
  | zero =>
      intro hj _ c hsucc
      match qs with
      | q :: rest =>
          have hq : attemptOutcome net cache q = some c := hsucc
          rw [resolveAttempts_cons_succ rest hq, List.take_succ_cons, List.take_zero,
            resolveAttempts_cons_succ [] hq]
          refine ⟨rfl, ?_⟩
          rw [netAttempt_fst]
          exact hq
  | succ j ih =>
      intro hj hfail c hsucc
      match qs with
      | q :: rest =>
          have h0 : attemptOutcome net cache q = none := hfail 0 (Nat.succ_pos j)
          have hj' : j < rest.length := Nat.lt_of_succ_lt_succ hj
          have hfail' : ∀ k (hk : k < j),
              attemptOutcome net cache (rest.get ⟨k, hk.trans hj'⟩) = none := by
            intro k hk
            exact hfail (k + 1) (Nat.succ_lt_succ hk)
          have hsucc' : attemptOutcome net cache (rest.get ⟨j, hj'⟩) = some c := hsucc
          obtain ⟨heq, hres⟩ := ih rest hj' hfail' hsucc'
          rw [resolveAttempts_cons_fail rest h0, List.take_succ_cons,
            resolveAttempts_cons_fail (rest.take (j + 1)) h0, heq]
          refine ⟨rfl, ?_⟩
          show (resolveAttempts net cache (rest.take (j + 1))).1 = some c
          rw [← heq]
          exact hres

theorem netAttempt_trace_queries {net : String → GeoOutcome α} {cache : Cache α}
    {q e : String} {x : Eff} (hx : x ∈ (netAttempt net cache q).2.2)
    (he : effQuery x = some e) : e = q := by
  rcases netAttempt_trace_shapes net cache q with h | h | h <;>
    rw [h] at hx <;> simp at hx <;>
    rcases hx with rfl | hx <;>
      first
        | (simp [effQuery] at he; exact he.symm)
        | (rcases hx with rfl | rfl <;> simp [effQuery] at he <;> exact he.symm)

theorem resolveAttempts_trace_queries {net : String → GeoOutcome α} :
    ∀ (qs : List String) (cache : Cache α) {x : Eff} {e : String},
      x ∈ (resolveAttempts net cache qs).2.2 → effQuery x = some e → e ∈ qs := by
  intro qs
  induction qs with
  | nil => intro cache x e hx _; simp [resolveAttempts] at hx
  | cons q rest ih =>
      intro cache x e hx he
      rcases hna : netAttempt net cache q with ⟨o, c1, t1⟩
      cases o with
      | some c =>
          rw [show resolveAttempts net cache (q :: rest) = (some c, c1, t1) by
            simp [resolveAttempts, hna]] at hx
          have := netAttempt_trace_queries (by rw [hna]; exact hx) he
          simp [this]
      | none =>
          rw [show resolveAttempts net cache (q :: rest) =
              ((resolveAttempts net c1 rest).1, (resolveAttempts net c1 rest).2.1,
                t1 ++ (resolveAttempts net c1 rest).2.2) by
            simp [resolveAttempts, hna]] at hx
          simp only at hx
          rcases List.mem_append.mp hx with h1 | h2
          · have := netAttempt_trace_queries (by rw [hna]; exact h1) he
            simp [this]
          · exact List.mem_cons_of_mem _ (ih c1 h2 he)

end AttemptLemmas

section PhaseLemmas

theorem netAttempt_preserves {net : String → GeoOutcome α} {cache : Cache α}
    {k : String} {v : α × α} (q : String) (h : dictLookup cache k = some v) :
    dictLookup (netAttempt net cache q).2.1 k = some v := by
  cases hm : dictMem cache q with
  | true => rw [netAttempt_of_mem net hm]; exact h
  | false =>
      cases hnq : net q with
      | found a b =>
          rw [netAttempt_found net hm hnq]
          have hkq : k ≠ q := by
            intro hkq
            rw [dictMem_false_iff] at hm
            rw [hkq, hm] at h
            cases h
          show dictLookup (dictInsert cache q (a, b)) k = some v
          rw [dictLookup_insert_ne cache (a, b) hkq]
          exact h
      | noResult =>
          rw [netAttempt_fail net hm (by intro x y hc; rw [hnq] at hc; cases hc)]
          exact h
      | raised =>
          rw [netAttempt_fail net hm (by intro x y hc; rw [hnq] at hc; cases hc)]
          exact h

theorem resolveAttempts_preserves {net : String → GeoOutcome α} :
    ∀ (qs : List String) {cache : Cache α} {k : String} {v : α × α},
      dictLookup cache k = some v →
      dictLookup (resolveAttempts net cache qs).2.1 k = some v := by
  intro qs
  induction qs with
  | nil => intro cache k v h; simpa [resolveAttempts] using h
  | cons q rest ih =>
      intro cache k v h
      rcases hna : netAttempt net cache q with ⟨o, c1, t1⟩
      have hc1 : dictLookup c1 k = some v := by
        have h2 := @netAttempt_preserves _ net cache k v q h
        rw [hna] at h2
        exact h2
      cases o with
      | some c => simp only [resolveAttempts, hna]; exact hc1
      | none => simp only [resolveAttempts, hna]; exact ih hc1

theorem networkPhase_preserves {net : String → GeoOutcome α} :
    ∀ (rows : List (Nat × Row)) {cache : Cache α} {k : String} {v : α × α},
      dictLookup cache k = some v →
      dictLookup (networkPhase net cache rows).2.1 k = some v := by
  intro rows
  induction rows with
  | nil => intro cache k v h; simpa [networkPhase] using h
  | cons p rest ih =>
      intro cache k v h
      obtain ⟨i, r⟩ := p
      simp only [networkPhase]
      exact ih (resolveAttempts_preserves (attemptsOf r) h)

theorem netAttempt_new_entry {net : String → GeoOutcome α} {cache : Cache α}
    {q k : String} {v : α × α}
    (h : dictLookup (netAttempt net cache q).2.1 k = some v) :
    dictLookup cache k = some v ∨ net k = GeoOutcome.found v.1 v.2 := by
  cases hm : dictMem cache q with
  | true => rw [netAttempt_of_mem net hm] at h; exact Or.inl h
  | false =>
      cases hnq : net q with
      | found a b =>
          rw [netAttempt_found net hm hnq] at h
          have h' : dictLookup (dictInsert cache q (a, b)) k = some v := h
          by_cases hkq : k = q
          · subst hkq
            rw [dictLookup_insert_self] at h'
            obtain rfl := Option.some.inj h'
            exact Or.inr hnq
          · rw [dictLookup_insert_ne cache (a, b) hkq] at h'
            exact Or.inl h'
      | noResult =>
          rw [netAttempt_fail net hm (by intro x y hc; rw [hnq] at hc; cases hc)] at h
          exact Or.inl h
      | raised =>
          rw [netAttempt_fail net hm (by intro x y hc; rw [hnq] at hc; cases hc)] at h
          exact Or.inl h

theorem resolveAttempts_new_entry {net : String → GeoOutcome α} :
    ∀ (qs : List String) {cache : Cache α} {k : String} {v : α × α},
      dictLookup (resolveAttempts net cache qs).2.1 k = some v →
      dictLookup cache k = some v ∨ net k = GeoOutcome.found v.1 v.2 := by
  intro qs
  induction qs with
  | nil => intro cache k v h; exact Or.inl h
  | cons q rest ih =>
      intro cache k v h
      rcases hna : netAttempt net cache q with ⟨o, c1, t1⟩
      have hstep : ∀ w : α × α, dictLookup c1 k = some w →
          dictLookup cache k = some w ∨ net k = GeoOutcome.found w.1 w.2 := by
        intro w hw
        exact netAttempt_new_entry (by rw [hna]; exact hw)
      cases o with
      | some c =>
          rw [show resolveAttempts net cache (q :: rest) = (some c, c1, t1) by
            simp [resolveAttempts, hna]] at h
          exact hstep v h
      | none =>
          rw [show (resolveAttempts net cache (q :: rest)).2.1 =
              (resolveAttempts net c1 rest).2.1 by simp [resolveAttempts, hna]] at h
          rcases ih h with h' | h'
          · exact hstep v h'
          · exact Or.inr h'

theorem networkPhase_new_entry {net : String → GeoOutcome α} :
    ∀ (rows : List (Nat × Row)) {cache : Cache α} {k : String} {v : α × α},
      dictLookup (networkPhase net cache rows).2.1 k = some v →
      dictLookup cache k = some v ∨ net k = GeoOutcome.found v.1 v.2 := by
  intro rows
  induction rows with
  | nil => intro cache k v h; exact Or.inl h
  | cons p rest ih =>
      intro cache k v h
      obtain ⟨i, r⟩ := p
      rw [show (networkPhase net cache ((i, r) :: rest)).2.1 =
          (networkPhase net (resolveAttempts net cache (attemptsOf r)).2.1 rest).2.1
        from rfl] at h
      rcases ih h with h' | h'
      · exact resolveAttempts_new_entry (attemptsOf r) h'
      · exact Or.inr h'

theorem networkPhase_append (net : String → GeoOutcome α) :
    ∀ (xs ys : List (Nat × Row)) (cache : Cache α),
      networkPhase net cache (xs ++ ys) =
        ((networkPhase net cache xs).1 ++
            (networkPhase net (networkPhase net cache xs).2.1 ys).1,
          (networkPhase net (networkPhase net cache xs).2.1 ys).2.1,
          (networkPhase net cache xs).2.2 ++
            (networkPhase net (networkPhase net cache xs).2.1 ys).2.2) := by
  intro xs
  induction xs with
  | nil => intro ys cache; simp [networkPhase]
  | cons p rest ih =>
      intro ys cache
      obtain ⟨i, r⟩ := p
      simp only [List.cons_append, networkPhase, List.append_eq]
      rw [ih ys (resolveAttempts net cache (attemptsOf r)).2.1]
      simp [List.append_assoc]

theorem resolveAttempts_all_fail {net : String → GeoOutcome α} :
    ∀ (qs : List String) {cache : Cache α},
      (∀ q ∈ qs, attemptOutcome net cache q = none) →
      resolveAttempts net cache qs =
        (none, cache, qs.flatMap (fun q => [Eff.probe q, Eff.netCall q, Eff.sleep])) := by
  intro qs
  induction qs with
  | nil => intro cache _; simp [resolveAttempts]
  | cons q rest ih =>
      intro cache h
      rw [resolveAttempts_cons_fail rest (h q (List.mem_cons_self _ _)),
        ih (fun p hp => h p (List.mem_cons_of_mem _ hp))]
      simp

theorem resolveAttempts_netCall_stored {net : String → GeoOutcome α} :
    ∀ (qs : List String) {cache : Cache α} {q : String} {a b : α},
      Eff.netCall q ∈ (resolveAttempts net cache qs).2.2 →
      net q = GeoOutcome.found a b →
      dictLookup (resolveAttempts net cache qs).2.1 q = some (a, b) := by
  intro qs
  induction qs with
  | nil => intro cache q a b h _; simp [resolveAttempts] at h
  | cons p rest ih =>
      intro cache q a b h hf
      cases hm : dictMem cache p with
      | true =>
          obtain ⟨v, hv⟩ := (dictMem_true_iff cache p).mp hm
          have hres : resolveAttempts net cache (p :: rest) =
              (some v, cache, [Eff.probe p]) := by
            have hna := netAttempt_of_mem net hm
            rw [hv] at hna
            simp [resolveAttempts, hna]
          rw [hres] at h
          simp at h
      | false =>
          cases hnp : net p with
          | found a' b' =>
              have hna := netAttempt_found net hm hnp
              have hres : resolveAttempts net cache (p :: rest) =
                  (some (a', b'), dictInsert cache p (a', b'),
                    [Eff.probe p, Eff.netCall p]) := by
                simp [resolveAttempts, hna]
              rw [hres] at h ⊢
              simp only [List.mem_cons, List.not_mem_nil, or_false] at h
              have hqp : q = p := by
                rcases h with h | h
                · cases h
                · exact (Eff.netCall.injEq q p).mp h
              subst hqp
              rw [hnp] at hf
              injection hf with h1 h2
              subst h1
              subst h2
              exact dictLookup_insert_self cache q (a', b')
          | noResult =>
              have hna := netAttempt_fail net hm
                (by intro x y hc; rw [hnp] at hc; cases hc)
              have hres : resolveAttempts net cache (p :: rest) =
                  ((resolveAttempts net cache rest).1,
                    (resolveAttempts net cache rest).2.1,
                    [Eff.probe p, Eff.netCall p, Eff.sleep] ++
                      (resolveAttempts net cache rest).2.2) := by
                simp [resolveAttempts, hna]
              rw [hres] at h ⊢
              simp only at h ⊢
              rcases List.mem_append.mp h with h1 | h2
              · have hqp : q = p := by
                  simp only [List.mem_cons, List.not_mem_nil, or_false] at h1
                  rcases h1 with h1 | h1 | h1
                  · cases h1
                  · exact (Eff.netCall.injEq q p).mp h1
                  · cases h1
                subst hqp
                rw [hnp] at hf
                cases hf
              · exact ih h2 hf
          | raised =>
              have hna := netAttempt_fail net hm
                (by intro x y hc; rw [hnp] at hc; cases hc)
              have hres : resolveAttempts net cache (p :: rest) =
                  ((resolveAttempts net cache rest).1,
                    (resolveAttempts net cache rest).2.1,
                    [Eff.probe p, Eff.netCall p, Eff.sleep] ++
                      (resolveAttempts net cache rest).2.2) := by
                simp [resolveAttempts, hna]
              rw [hres] at h ⊢
              simp only at h ⊢
              rcases List.mem_append.mp h with h1 | h2
              · have hqp : q = p := by
                  simp only [List.mem_cons, List.not_mem_nil, or_false] at h1
                  rcases h1 with h1 | h1 | h1
                  · cases h1
                  · exact (Eff.netCall.injEq q p).mp h1
                  · cases h1
                subst hqp
                rw [hnp] at hf
                cases hf
              · exact ih h2 hf

theorem networkPhase_netCall_stored {net : String → GeoOutcome α} :
    ∀ (rows : List (Nat × Row)) {cache : Cache α} {q : String} {a b : α},
      Eff.netCall q ∈ (networkPhase net cache rows).2.2 →
      net q = GeoOutcome.found a b →
      dictLookup (networkPhase net cache rows).2.1 q = some (a, b) := by
  intro rows
  induction rows with
  | nil => intro cache q a b h _; simp [networkPhase] at h
  | cons p rest ih =>
      intro cache q a b h hf
      obtain ⟨i, r⟩ := p
      rw [show (networkPhase net cache ((i, r) :: rest)).2.2 =
          (resolveAttempts net cache (attemptsOf r)).2.2 ++
            (networkPhase net (resolveAttempts net cache (attemptsOf r)).2.1 rest).2.2
        from rfl] at h
      rw [show (networkPhase net cache ((i, r) :: rest)).2.1 =
          (networkPhase net (resolveAttempts net cache (attemptsOf r)).2.1 rest).2.1
        from rfl]
      rcases List.mem_append.mp h with h1 | h2
      · exact networkPhase_preserves rest
          (resolveAttempts_netCall_stored (attemptsOf r) h1 hf)
      · exact ih h2 hf

end PhaseLemmas

section PartitionLemmas

theorem partitionAux_fst (cache : Cache α) :
    ∀ (rows : List Row) (i : Nat),
      (partitionAux cache rows i).1 = rows.map (cacheProbe cache) := by
  intro rows
  induction rows with
  | nil => intro i; simp [partitionAux]
  | cons r rs ih =>
      intro i
      cases h : cacheProbe cache r with
      | some c => simp [partitionAux, h, ih]
      | none => simp [partitionAux, h, ih]

theorem partitionAux_snd_mem (cache : Cache α) :
    ∀ (rows : List Row) (i : Nat) (p : Nat × Row),
      p ∈ (partitionAux cache rows i).2 ↔
        ∃ k, ∃ hk : k < rows.length,
          p.1 = i + k ∧ p.2 = rows.get ⟨k, hk⟩ ∧ cacheProbe cache p.2 = none := by
  intro rows
  induction rows with
  | nil => intro i p; simp [partitionAux]
  | cons r rs ih =>
      intro i p
      constructor
      · intro hp
        cases h : cacheProbe cache r with
        | some c =>
            rw [show (partitionAux cache (r :: rs) i).2 =
                (partitionAux cache rs (i + 1)).2 by simp [partitionAux, h]] at hp
            obtain ⟨k, hk, h1, h2, h3⟩ := (ih (i + 1) p).mp hp
            refine ⟨k + 1, Nat.succ_lt_succ hk, by omega, by simpa using h2, h3⟩
        | none =>
            rw [show (partitionAux cache (r :: rs) i).2 =
                (i, r) :: (partitionAux cache rs (i + 1)).2 by
              simp [partitionAux, h]] at hp
            rcases List.mem_cons.mp hp with rfl | hp'
            · exact ⟨0, Nat.succ_pos _, by simp, by simp, by simpa using h⟩
            · obtain ⟨k, hk, h1, h2, h3⟩ := (ih (i + 1) p).mp hp'
              refine ⟨k + 1, Nat.succ_lt_succ hk, by omega, by simpa using h2, h3⟩
      · rintro ⟨k, hk, h1, h2, h3⟩
        cases k with
        | zero =>
            have hr : p.2 = r := by simpa using h2
            have hprobe : cacheProbe cache r = none := hr ▸ h3
            rw [show (partitionAux cache (r :: rs) i).2 =
                (i, r) :: (partitionAux cache rs (i + 1)).2 by
              simp [partitionAux, hprobe]]
            have hp : p = (i, r) := by
              obtain ⟨p1, p2⟩ := p
              simp only at h1 hr
              simp [h1, hr]
            simp [hp]
        | succ k' =>
            have hk' : k' < rs.length := Nat.lt_of_succ_lt_succ hk
            have h2' : p.2 = rs.get ⟨k', hk'⟩ := by simpa using h2
            have hmem : p ∈ (partitionAux cache rs (i + 1)).2 :=
              (ih (i + 1) p).mpr ⟨k', hk', by omega, h2', h3⟩
            cases h : cacheProbe cache r with
            | some c =>
                rw [show (partitionAux cache (r :: rs) i).2 =
                    (partitionAux cache rs (i + 1)).2 by simp [partitionAux, h]]
                exact hmem
            | none =>
                rw [show (partitionAux cache (r :: rs) i).2 =
                    (i, r) :: (partitionAux cache rs (i + 1)).2 by
                  simp [partitionAux, h]]
                exact List.mem_cons_of_mem _ hmem

theorem partitionAux_snd_ge (cache : Cache α) (rows : List Row) (i : Nat)
    (p : Nat × Row) (hp : p ∈ (partitionAux cache rows i).2) : i ≤ p.1 := by
  obtain ⟨k, hk, h1, _, _⟩ := (partitionAux_snd_mem cache rows i p).mp hp
  omega

theorem partitionAux_snd_pairwise (cache : Cache α) :
    ∀ (rows : List Row) (i : Nat),
      (partitionAux cache rows i).2.Pairwise (fun a b => a.1 < b.1) := by
  intro rows
  induction rows with
  | nil => intro i; simp [partitionAux]
  | cons r rs ih =>
      intro i
      cases h : cacheProbe cache r with
      | some c =>
          rw [show (partitionAux cache (r :: rs) i).2 =
              (partitionAux cache rs (i + 1)).2 by simp [partitionAux, h]]
          exact ih (i + 1)
      | none =>
          rw [show (partitionAux cache (r :: rs) i).2 =
              (i, r) :: (partitionAux cache rs (i + 1)).2 by simp [partitionAux, h]]
          refine List.Pairwise.cons ?_ (ih (i + 1))
          intro b hb
          have := partitionAux_snd_ge cache rs (i + 1) b hb
          omega

theorem partitionAux_snd_nodup (cache : Cache α) (rows : List Row) (i : Nat) :
    (((partitionAux cache rows i).2.map Prod.fst)).Nodup := by
  have hp := partitionAux_snd_pairwise cache rows i
  have : ((partitionAux cache rows i).2.map Prod.fst).Pairwise (· < ·) :=
    List.pairwise_map.mpr hp
  exact this.imp Nat.ne_of_lt

theorem networkPhase_fst_map (net : String → GeoOutcome α) :
    ∀ (rows : List (Nat × Row)) (cache : Cache α),
      (networkPhase net cache rows).1.map Prod.fst = rows.map Prod.fst := by
  intro rows
  induction rows with
  | nil => intro cache; simp [networkPhase]
  | cons p rest ih =>
      intro cache
      obtain ⟨i, r⟩ := p
      simp [networkPhase, ih]

end PartitionLemmas

section MergeLemmas

theorem writeResults_length :
    ∀ (ws : List (Nat × Option (α × α))) (cells : List (Option (Option α × Option α))),
      (writeResults cells ws).length = cells.length := by
  intro ws
  induction ws with
  | nil => intro cells; rfl
  | cons p rest ih =>
      intro cells
      rw [writeResults, ih, List.length_set]

theorem writeResults_getElem_not_mem :
    ∀ (ws : List (Nat × Option (α × α))) (cells : List (Option (Option α × Option α)))
      (j : Nat), (∀ p ∈ ws, p.1 ≠ j) →
      (writeResults cells ws)[j]? = cells[j]? := by
  intro ws
  induction ws with
  | nil => intro cells j _; rfl
  | cons p rest ih =>
      intro cells j hne
      rw [writeResults, ih _ j (fun q hq => hne q (List.mem_cons_of_mem _ hq)),
        List.getElem?_set_ne (hne p (List.mem_cons_self _ _))]

theorem writeResults_getElem_mem :
    ∀ (ws : List (Nat × Option (α × α))) (cells : List (Option (Option α × Option α)))
      (j : Nat) (x : Option (α × α)), ((ws.map Prod.fst)).Nodup →
      (j, x) ∈ ws → j < cells.length →
      (writeResults cells ws)[j]? = some (some (toPair x)) := by
  intro ws
  induction ws with
  | nil => intro cells j x _ hmem _; cases hmem
  | cons p rest ih =>
      intro cells j x hnd hmem hj
      have hnd' : ((rest.map Prod.fst)).Nodup := (List.nodup_cons.mp (by simpa using hnd)).2
      rcases List.mem_cons.mp hmem with rfl | hmem'
      · have hrest : ∀ q ∈ rest, q.1 ≠ j := by
          intro q hq hqj
          have hj1 : j ∈ rest.map Prod.fst := hqj ▸ List.mem_map_of_mem Prod.fst hq
          exact (List.nodup_cons.mp (by simpa using hnd)).1 hj1
        rw [writeResults, writeResults_getElem_not_mem rest _ j hrest,
          List.getElem?_set_eq_of_lt _ hj]
      · have hj' : j < (cells.set p.1 (some (toPair p.2))).length := by
          rwa [List.length_set]
        rw [writeResults]
        exact ih _ j x hnd' hmem' hj'

theorem seqCells_eq_some_iff {β : Type} :
    ∀ (cs : List (Option β)) (rs : List β),
      seqCells cs = some rs ↔ cs = rs.map some := by
  intro cs
  induction cs with
  | nil =>
      intro rs
      cases rs with
      | nil => simp [seqCells]
      | cons r rest => simp [seqCells]
  | cons c rest ih =>
      intro rs
      cases c with
      | none =>
          simp only [seqCells]
          constructor
          · intro h; cases h
          · intro h
            cases rs with
            | nil => cases h
            | cons r rs' => simp at h
      | some x =>
          cases rs with
          | nil =>
              simp only [seqCells, List.map_nil]
              constructor
              · intro h
                rcases Option.map_eq_some'.mp h with ⟨l, _, hl⟩
                cases hl
              · intro h; cases h
          | cons r rs' =>
              simp only [seqCells, List.map_cons]
              constructor
              · intro h
                rcases Option.map_eq_some'.mp h with ⟨l, hsl, hl⟩
                cases hl
                rw [(ih rs').mp hsl]
              · intro h
                injection h with h1 h2
                obtain rfl : x = r := Option.some.inj h1
                rw [show seqCells rest = some rs' from (ih rs').mpr h2]
                rfl

theorem seqCells_of_all_isSome {β : Type} :
    ∀ (cs : List (Option β)), (∀ c ∈ cs, c.isSome) →
      ∃ rs, seqCells cs = some rs ∧ cs = rs.map some := by
  intro cs
  induction cs with
  | nil => intro _; exact ⟨[], rfl, rfl⟩
  | cons c rest ih =>
      intro h
      obtain ⟨x, hx⟩ := Option.isSome_iff_exists.mp (h c (List.mem_cons_self _ _))
      obtain ⟨rs, hrs, hcs⟩ := ih (fun d hd => h d (List.mem_cons_of_mem _ hd))
      subst hx
      exact ⟨x :: rs, by simp [seqCells, hrs], by simp [hcs]⟩

end MergeLemmas

section PipelineLemmas

theorem runPipeline_eq (fmt : α → String) (net : String → GeoOutcome α)
    (cache₀ : Cache α) (data : List Row) (results : List (Option α × Option α))
    (hseq : seqCells (writeResults
        ((partitionAux cache₀ data 0).1.map (fun o => o.map (fun c => (some c.1, some c.2))))
        (networkPhase net cache₀ (partitionAux cache₀ data 0).2).1) = some results)
    (hlen : results.length = data.length) :
    runPipeline fmt net cache₀ data = some
      { results := results,
        enriched := List.zipWith (fun r p => attachRow r p.1 p.2) data results,
        missingCoords := results.countP isMissing,
        finalCache := (networkPhase net cache₀ (partitionAux cache₀ data 0).2).2.1,
        savedFile := save_geocode_cache fmt
          (networkPhase net cache₀ (partitionAux cache₀ data 0).2).2.1,
        trace := (networkPhase net cache₀ (partitionAux cache₀ data 0).2).2.2
          ++ [Eff.flush] } := by
  simp only [runPipeline]
  rw [hseq]
  simp [hlen]

theorem runPipeline_spec (fmt : α → String) (net : String → GeoOutcome α)
    (cache₀ : Cache α) (data : List Row) :
    ∃ out, runPipeline fmt net cache₀ data = some out ∧
      out.results.length = data.length ∧
      out.enriched = List.zipWith (fun r p => attachRow r p.1 p.2) data out.results ∧
      out.missingCoords = out.results.countP isMissing ∧
      out.finalCache = (networkPhase net cache₀ (partitionAux cache₀ data 0).2).2.1 ∧
      out.savedFile = save_geocode_cache fmt out.finalCache ∧
      out.trace = (networkPhase net cache₀ (partitionAux cache₀ data 0).2).2.2
          ++ [Eff.flush] ∧
      ∀ j r, data[j]? = some r →
        (∀ c, cacheProbe cache₀ r = some c →
          out.results[j]? = some (some c.1, some c.2)) ∧
        (cacheProbe cache₀ r = none →
          ∃ res, (j, res) ∈ (networkPhase net cache₀ (partitionAux cache₀ data 0).2).1 ∧
            out.results[j]? = some (toPair res)) := by
  have hpart1 : (partitionAux cache₀ data 0).1 = data.map (cacheProbe cache₀) :=
    partitionAux_fst cache₀ data 0
  have hlen₀ :
      ((partitionAux cache₀ data 0).1.map
        (fun o => o.map (fun c => ((some c.1 : Option α), (some c.2 : Option α))))).length
        = data.length := by
    rw [hpart1]; simp
  have hnd : (((networkPhase net cache₀ (partitionAux cache₀ data 0).2).1.map
      Prod.fst)).Nodup := by
    rw [networkPhase_fst_map]
    exact partitionAux_snd_nodup cache₀ data 0
  have hidx : ∀ j r, data[j]? = some r →
      (∀ c, cacheProbe cache₀ r = some c →
        (writeResults
          ((partitionAux cache₀ data 0).1.map
            (fun o => o.map (fun c => (some c.1, some c.2))))
          (networkPhase net cache₀ (partitionAux cache₀ data 0).2).1)[j]?
          = some (some (some c.1, some c.2))) ∧
      (cacheProbe cache₀ r = none →
        ∃ res, (j, res) ∈ (networkPhase net cache₀ (partitionAux cache₀ data 0).2).1 ∧
          (writeResults
            ((partitionAux cache₀ data 0).1.map
              (fun o => o.map (fun c => (some c.1, some c.2))))
            (networkPhase net cache₀ (partitionAux cache₀ data 0).2).1)[j]?
            = some (some (toPair res))) := by
    intro j r hjr
    obtain ⟨hj, hget⟩ := List.getElem?_eq_some_iff.mp hjr
    constructor
    · intro c hc
      have hnotin : ∀ p ∈ (networkPhase net cache₀ (partitionAux cache₀ data 0).2).1,
          p.1 ≠ j := by
        intro p hp hpj
        have hj1 : p.1 ∈ ((networkPhase net cache₀ (partitionAux cache₀ data 0).2).1.map
            Prod.fst) := List.mem_map_of_mem Prod.fst hp
        rw [networkPhase_fst_map, hpj] at hj1
        obtain ⟨q, hq, hq1⟩ := List.mem_map.mp hj1
        obtain ⟨k, hk, hk1, hk2, hk3⟩ := (partitionAux_snd_mem cache₀ data 0 q).mp hq
        have hkj : k = j := by omega
        subst hkj
        have : q.2 = r := by
          rw [hk2]
          simp only [List.get_eq_getElem]
          exact hget
        rw [this, hc] at hk3
        cases hk3
      rw [writeResults_getElem_not_mem _ _ j hnotin]
      rw [hpart1]
      rw [List.getElem?_map, List.getElem?_map, hjr]
      simp [hc]
    · intro hc
      have hgetr : data.get ⟨j, hj⟩ = r := by
        simp only [List.get_eq_getElem]
        exact hget
      have hmemapis : ((j, r) : Nat × Row) ∈ (partitionAux cache₀ data 0).2 :=
        (partitionAux_snd_mem cache₀ data 0 (j, r)).mpr
          ⟨j, hj, by simp, by simpa using hgetr.symm, hc⟩
      have hjin : j ∈ ((networkPhase net cache₀ (partitionAux cache₀ data 0).2).1.map
          Prod.fst) := by
        rw [networkPhase_fst_map]
        exact List.mem_map_of_mem Prod.fst hmemapis
      obtain ⟨p, hp, hp1⟩ := List.mem_map.mp hjin
      have hpeq : p = (j, p.2) := by
        obtain ⟨p1, res⟩ := p
        simp only at hp1
        simp [hp1]
      rw [hpeq] at hp
      refine ⟨p.2, hp, ?_⟩
      have hjlen : j < ((partitionAux cache₀ data 0).1.map
          (fun o => o.map (fun c => ((some c.1 : Option α), (some c.2 : Option α))))).length := by
        rw [hlen₀]; exact hj
      exact writeResults_getElem_mem _ _ j p.2 hnd hp hjlen
  have hall : ∀ c ∈ (writeResults
      ((partitionAux cache₀ data 0).1.map
        (fun o => o.map (fun c => ((some c.1 : Option α), (some c.2 : Option α)))))
      (networkPhase net cache₀ (partitionAux cache₀ data 0).2).1), c.isSome := by
    intro c hcmem
    obtain ⟨j, hcj⟩ := List.mem_iff_getElem?.mp hcmem
    have hjlt := (List.getElem?_eq_some_iff.mp hcj).1
    rw [writeResults_length, hlen₀] at hjlt
    have hdj : data[j]? = some data[j] := List.getElem?_eq_getElem hjlt
    rcases hpr : cacheProbe cache₀ data[j] with _ | cc
    · obtain ⟨res, _, hres⟩ := (hidx j data[j] hdj).2 hpr
      rw [hcj] at hres
      obtain rfl := Option.some.inj hres
      rfl
    · have hres := (hidx j data[j] hdj).1 cc hpr
      rw [hcj] at hres
      obtain rfl := Option.some.inj hres
      rfl
  obtain ⟨results, hseq, hcellseq⟩ := seqCells_of_all_isSome _ hall
  have hreslen : results.length = data.length := by
    have h1 : (writeResults
        ((partitionAux cache₀ data 0).1.map
          (fun o => o.map (fun c => ((some c.1 : Option α), (some c.2 : Option α)))))
        (networkPhase net cache₀ (partitionAux cache₀ data 0).2).1).length
        = results.length := by rw [hcellseq]; simp
    rw [writeResults_length, hlen₀] at h1
    exact h1.symm
  refine ⟨_, runPipeline_eq fmt net cache₀ data results hseq hreslen, hreslen, rfl, rfl,
    rfl, rfl, rfl, ?_⟩
  intro j r hjr
  have hmain := hidx j r hjr
  have hcell : ∀ v, (writeResults
      ((partitionAux cache₀ data 0).1.map
        (fun o => o.map (fun c => ((some c.1 : Option α), (some c.2 : Option α)))))
      (networkPhase net cache₀ (partitionAux cache₀ data 0).2).1)[j]? = some (some v) →
      results[j]? = some v := by
    intro v hv
    rw [hcellseq, List.getElem?_map] at hv
    rcases hrj : results[j]? with _ | w
    · rw [hrj] at hv; cases hv
    · rw [hrj] at hv
      obtain h2 := Option.some.inj (Option.some.inj hv)
      rw [h2]
  constructor
  · intro c hc
    exact hcell _ (hmain.1 c hc)
  · intro hc
    obtain ⟨res, hres1, hres2⟩ := hmain.2 hc
    exact ⟨res, hres1, hcell _ hres2⟩

end PipelineLemmas

section MoreLemmas

theorem probeAttempts_first_hit {cache : Cache α} :
    ∀ (qs : List String) (j : Nat) (hj : j < qs.length),
      (∀ k (hk : k < j), dictMem cache (qs.get ⟨k, hk.trans hj⟩) = false) →
      dictMem cache (qs.get ⟨j, hj⟩) = true →
      probeAttempts cache qs = dictLookup cache (qs.get ⟨j, hj⟩) := by
  intro qs j
  induction j generalizing qs with
  | zero =>
      intro hj _ hhit
      match qs with
      | q :: rest =>
          have : dictMem cache q = true := hhit
          simp [probeAttempts, this]
  | succ j ih =>
      intro hj hmiss hhit
      match qs with
      | q :: rest =>
          have h0 : dictMem cache q = false := hmiss 0 (Nat.succ_pos j)
          have hj' : j < rest.length := Nat.lt_of_succ_lt_succ hj
          simp only [probeAttempts, h0, Bool.false_eq_true, if_false]
          exact ih rest hj' (fun k hk => hmiss (k + 1) (Nat.succ_lt_succ hk)) hhit

theorem probeAttempts_all_miss {cache : Cache α} :
    ∀ (qs : List String), (∀ q ∈ qs, dictMem cache q = false) →
      probeAttempts cache qs = none := by
  intro qs
  induction qs with
  | nil => intro _; rfl
  | cons q rest ih =>
      intro h
      simp only [probeAttempts, h q (List.mem_cons_self _ _), Bool.false_eq_true, if_false]
      exact ih (fun p hp => h p (List.mem_cons_of_mem _ hp))

theorem netAttempt_collapse (net : String → GeoOutcome α) (cache : Cache α)
    (q : String) :
    netAttempt (fun s => collapseRaised (net s)) cache q = netAttempt net cache q := by
  unfold netAttempt
  cases hm : dictMem cache q with
  | true => simp
  | false => cases hnq : net q <;> simp [hnq, collapseRaised]

theorem resolveAttempts_collapse (net : String → GeoOutcome α) :
    ∀ (qs : List String) (cache : Cache α),
      resolveAttempts (fun s => collapseRaised (net s)) cache qs =
        resolveAttempts net cache qs := by
  intro qs
  induction qs with
  | nil => intro cache; rfl
  | cons q rest ih =>
      intro cache
      simp only [resolveAttempts, netAttempt_collapse, ih]

theorem networkPhase_collapse (net : String → GeoOutcome α) :
    ∀ (rows : List (Nat × Row)) (cache : Cache α),
      networkPhase (fun s => collapseRaised (net s)) cache rows =
        networkPhase net cache rows := by
  intro rows
  induction rows with
  | nil => intro cache; rfl
  | cons p rest ih =>
      intro cache
      obtain ⟨i, r⟩ := p
      simp only [networkPhase, resolveAttempts_collapse, ih]

theorem networkPhase_mem_result {net : String → GeoOutcome α} :
    ∀ (rows : List (Nat × Row)) (cache : Cache α) (j : Nat) (res : Option (α × α)),
      (j, res) ∈ (networkPhase net cache rows).1 →
      ∃ (r : Row) (c₁ : Cache α), (j, r) ∈ rows ∧
        res = (resolveAttempts net c₁ (attemptsOf r)).1 ∧
        ∀ k v, dictLookup c₁ k = some v →
          dictLookup cache k = some v ∨ net k = GeoOutcome.found v.1 v.2 := by
  intro rows
  induction rows with
  | nil => intro cache j res h; simp [networkPhase] at h
  | cons p rest ih =>
      intro cache j res h
      obtain ⟨i, r⟩ := p
      rw [show (networkPhase net cache ((i, r) :: rest)).1 =
          (i, (resolveAttempts net cache (attemptsOf r)).1) ::
            (networkPhase net (resolveAttempts net cache (attemptsOf r)).2.1 rest).1
        from rfl] at h
      rcases List.mem_cons.mp h with heq | hmem
      · injection heq with h1 h2
        subst h1
        exact ⟨r, cache, List.mem_cons_self _ _, h2, fun k v hv => Or.inl hv⟩
      · obtain ⟨r', c₁, hr1, hr2, hr3⟩ := ih _ j res hmem
        refine ⟨r', c₁, List.mem_cons_of_mem _ hr1, hr2, ?_⟩
        intro k v hv
        rcases hr3 k v hv with h' | h'
        · exact resolveAttempts_new_entry (attemptsOf r) h'
        · exact Or.inr h'

theorem networkPhase_no_flush {net : String → GeoOutcome α} :
    ∀ (rows : List (Nat × Row)) (cache : Cache α),
      Eff.flush ∉ (networkPhase net cache rows).2.2 := by
  have hattempt : ∀ (cache : Cache α) (qs : List String),
      Eff.flush ∉ (resolveAttempts net cache qs).2.2 := by
    intro cache qs
    induction qs generalizing cache with
    | nil => simp [resolveAttempts]
    | cons q rest ih =>
        rcases hna : netAttempt net cache q with ⟨o, c1, t1⟩
        have ht1 : Eff.flush ∉ t1 := by
          intro hx
          rcases netAttempt_trace_shapes net cache q with h | h | h <;>
            rw [hna] at h <;> simp only at h <;> subst h <;> simp at hx
        cases o with
        | some c =>
            rw [show resolveAttempts net cache (q :: rest) = (some c, c1, t1) by
              simp [resolveAttempts, hna]]
            exact ht1
        | none =>
            rw [show (resolveAttempts net cache (q :: rest)).2.2 =
                t1 ++ (resolveAttempts net c1 rest).2.2 by simp [resolveAttempts, hna]]
            intro hx
            rcases List.mem_append.mp hx with h1 | h2
            · exact ht1 h1
            · exact ih c1 h2
  intro rows
  induction rows with
  | nil => intro cache; simp [networkPhase]
  | cons p rest ih =>
      intro cache
      obtain ⟨i, r⟩ := p
      rw [show (networkPhase net cache ((i, r) :: rest)).2.2 =
          (resolveAttempts net cache (attemptsOf r)).2.2 ++
            (networkPhase net (resolveAttempts net cache (attemptsOf r)).2.1 rest).2.2
        from rfl]
      intro hx
      rcases List.mem_append.mp hx with h1 | h2
      · exact hattempt cache (attemptsOf r) h1
      · exact ih _ h2

theorem netAttempt_nodup_keys {net : String → GeoOutcome α} {cache : Cache α}
    (q : String) (h : (dictKeys cache).Nodup) :
    (dictKeys (netAttempt net cache q).2.1).Nodup := by
  cases hm : dictMem cache q with
  | true => rw [netAttempt_of_mem net hm]; exact h
  | false =>
      cases hnq : net q with
      | found a b =>
          rw [netAttempt_found net hm hnq]
          exact dictKeys_insert_nodup (a, b) h
      | noResult =>
          rw [netAttempt_fail net hm (by intro x y hc; rw [hnq] at hc; cases hc)]
          exact h
      | raised =>
          rw [netAttempt_fail net hm (by intro x y hc; rw [hnq] at hc; cases hc)]
          exact h

theorem resolveAttempts_nodup_keys {net : String → GeoOutcome α} :
    ∀ (qs : List String) {cache : Cache α}, (dictKeys cache).Nodup →
      (dictKeys (resolveAttempts net cache qs).2.1).Nodup := by
  intro qs
  induction qs with
  | nil => intro cache h; exact h
  | cons q rest ih =>
      intro cache h
      rcases hna : netAttempt net cache q with ⟨o, c1, t1⟩
      have hc1 : (dictKeys c1).Nodup := by
        have h2 := @netAttempt_nodup_keys _ net cache q h
        rw [hna] at h2
        exact h2
      cases o with
      | some c => simp only [resolveAttempts, hna]; exact hc1
      | none => simp only [resolveAttempts, hna]; exact ih hc1

theorem networkPhase_nodup_keys {net : String → GeoOutcome α} :
    ∀ (rows : List (Nat × Row)) {cache : Cache α}, (dictKeys cache).Nodup →
      (dictKeys (networkPhase net cache rows).2.1).Nodup := by
  intro rows
  induction rows with
  | nil => intro cache h; exact h
  | cons p rest ih =>
      intro cache h
      obtain ⟨i, r⟩ := p
      exact ih (resolveAttempts_nodup_keys (attemptsOf r) h)

theorem countP_eraseIdx_of_pos {β : Type} (p : β → Bool) :
    ∀ (l : List β) (i : Nat) (x : β), l[i]? = some x → p x = true →
      l.countP p = (l.eraseIdx i).countP p + 1 := by
  intro l
  induction l with
  | nil => intro i x h _; cases h
  | cons a t ih =>
      intro i x h hp
      cases i with
      | zero =>
          obtain rfl : a = x := Option.some.inj (by simpa using h)
          simp [List.countP_cons, hp, List.eraseIdx]
      | succ i' =>
          have h' : t[i']? = some x := by simpa using h
          rw [show (a :: t).eraseIdx (i' + 1) = a :: t.eraseIdx i' from rfl]
          rw [List.countP_cons, List.countP_cons, ih i' x h' hp]
          omega

end MoreLemmas

section Claims

/-- C9: Save/load round-trip.  For an in-memory cache mapping (a Python
dict, so keys are distinct) whose values print to non-empty strings that
parse back to themselves (as Python repr/float do on every finite
float), saving with save_geocode_cache and loading the written rows with
load_geocode_cache yields back exactly the same mapping. -/
theorem save_then_load_roundtrip (fmt : α → String) (parse : String → Option α)
    (hrt : ∀ x, parse (fmt x) = some x) (hne : ∀ x, fmt x ≠ "")
    (m : Cache α) (hnd : (dictKeys m).Nodup) :
    load_geocode_cache parse (save_geocode_cache fmt m) = Except.ok m :=
  load_save_roundtrip fmt parse hrt hne m hnd

/-- Witness for C9 at a concrete two-entry cache. -/
theorem save_then_load_roundtrip_witness :
    load_geocode_cache bitParse
      (save_geocode_cache bitFmt [("a", (true, false)), ("b", (false, false))]) =
      Except.ok [("a", (true, false)), ("b", (false, false))] :=
  save_then_load_roundtrip bitFmt bitParse (by decide) (by decide)
    [("a", (true, false)), ("b", (false, false))] (by decide)

/-- C3 counterexample: load_geocode_cache does not skip every malformed
row silently — a row with exactly three columns and non-empty coordinate
texts whose latitude does not parse as a number makes the load raise
(Python: float("x") raises ValueError, uncaught in load_geocode_cache)
instead of skipping the row. -/
theorem load_raises_on_nonnumeric_row :
    load_geocode_cache bitParse [["a", "x", "1"]] =
      Except.error "ValueError: could not convert string to float" := by
  rfl

/-- C3 (amended): rows with the wrong column count or an empty coordinate
column are skipped silently, and in the absence of poison rows (three
columns, non-empty coordinate texts, one of them unparseable — on which
the load raises instead) load_geocode_cache returns exactly the mapping
accumulated from the accepted rows. -/
theorem load_accepts_or_skips (parse : String → Option α)
    (rows : List (List String))
    (h : ∀ row ∈ rows, rowPoison parse row = false) :
    load_geocode_cache parse rows =
      Except.ok (rows.foldl
        (fun c row =>
          match rowAccepted parse row with
          | some p => dictInsert c p.1 p.2
          | none => c) []) :=
  loadRows_no_poison parse rows [] h

/-- Witness for the amended C3: a file with one accepted row, one
too-short row, one row with an empty coordinate, one more accepted row
and one too-long row loads to the two accepted entries. -/
theorem load_accepts_or_skips_witness :
    load_geocode_cache bitParse
      [["a", "1", "0"], ["short"], ["b", "", "1"], ["c", "0", "0"],
        ["d", "1", "0", "1"]] =
      Except.ok [("a", (true, false)), ("c", (false, false))] :=
  (load_accepts_or_skips bitParse
      [["a", "1", "0"], ["short"], ["b", "", "1"], ["c", "0", "0"],
        ["d", "1", "0", "1"]] (by decide)).trans (by rfl)

/-- C1: for a record resolved in the network phase, the candidate list is
exactly [full address, "postcode, Australia", "suburb, state postcode,
Australia"]; every attempt first probes the cache and only then can call
the network (the per-attempt trace is one of the three listed shapes);
the loop stops at the first candidate that yields a coordinate — the
whole resolution equals the resolution of the candidate list truncated
just after the first success, so no later candidate is probed or called —
and the record's result in the phase output is exactly that first
successful candidate's coordinate. -/
theorem network_phase_first_success (net : String → GeoOutcome α)
    (cache : Cache α) (r : Row) (i : Nat) (rest : List (Nat × Row))
    (j : Nat) (hj : j < (attemptsOf r).length) (c : α × α)
    (hfail : ∀ k (hk : k < j),
      attemptOutcome net cache ((attemptsOf r).get ⟨k, hk.trans hj⟩) = none)
    (hsucc : attemptOutcome net cache ((attemptsOf r).get ⟨j, hj⟩) = some c) :
    attemptsOf r = [r.fullAddress, r.postcode ++ ", Australia",
      r.suburb ++ ", " ++ r.state ++ " " ++ r.postcode ++ ", Australia"]
    ∧ (∀ (q : String) (cache2 : Cache α),
        (netAttempt net cache2 q).2.2 = [Eff.probe q]
        ∨ (netAttempt net cache2 q).2.2 = [Eff.probe q, Eff.netCall q]
        ∨ (netAttempt net cache2 q).2.2 = [Eff.probe q, Eff.netCall q, Eff.sleep])
    ∧ resolveAttempts net cache (attemptsOf r) =
        resolveAttempts net cache ((attemptsOf r).take (j + 1))
    ∧ (resolveAttempts net cache (attemptsOf r)).1 = some c
    ∧ (∀ x ∈ (resolveAttempts net cache (attemptsOf r)).2.2, ∀ q,
        effQuery x = some q → q ∈ (attemptsOf r).take (j + 1))
    ∧ (networkPhase net cache ((i, r) :: rest)).1.head? = some (i, some c) := by
  obtain ⟨heq, hres⟩ := resolveAttempts_take (attemptsOf r) j hj hfail hsucc
  refine ⟨rfl, fun q c2 => netAttempt_trace_shapes net c2 q, heq, hres, ?_, ?_⟩
  · intro x hx q hq
    rw [heq] at hx
    exact resolveAttempts_trace_queries ((attemptsOf r).take (j + 1)) cache hx hq
  · simp [networkPhase, hres]

/-- Witness for C1: with an empty cache and a geocoder that only finds
the third candidate, the record resolves to the third candidate's
coordinate. -/
theorem network_phase_first_success_witness :
    (resolveAttempts wNetFindThird [] (attemptsOf wRow1)).1 = some (5, 6)
    ∧ (networkPhase wNetFindThird [] [(0, wRow1)]).1.head? = some (0, some (5, 6)) := by
  have h := network_phase_first_success wNetFindThird [] wRow1 0 [] 2
    (by decide) ((5 : Int), (6 : Int)) (by decide) (by decide)
  exact ⟨h.2.2.2.1, h.2.2.2.2.2⟩

/-- C4: a candidate that is cache-resident at the moment it is examined
is served from the cache: the attempt returns the cached coordinate,
leaves the cache unchanged, and its whole trace is the bare cache probe —
no network call and no sleep.  Cache entries persist through the network
phase, and the phase processes the record list sequentially, threading
the cache left to right, so an entry written by an earlier record is
visible (and by the first conjunct cache-served) for every later record
sharing the candidate string. -/
theorem cached_query_no_network_no_sleep (net : String → GeoOutcome α) :
    (∀ (c : Cache α) (q : String), dictMem c q = true →
      netAttempt net c q = (dictLookup c q, c, [Eff.probe q]))
    ∧ (∀ (c : Cache α) (k : String) (v : α × α) (rows : List (Nat × Row)),
        dictLookup c k = some v →
        dictLookup (networkPhase net c rows).2.1 k = some v)
    ∧ (∀ (c : Cache α) (xs ys : List (Nat × Row)),
        networkPhase net c (xs ++ ys) =
          ((networkPhase net c xs).1 ++
              (networkPhase net (networkPhase net c xs).2.1 ys).1,
            (networkPhase net (networkPhase net c xs).2.1 ys).2.1,
            (networkPhase net c xs).2.2 ++
              (networkPhase net (networkPhase net c xs).2.1 ys).2.2)) :=
  ⟨fun _ _q h => netAttempt_of_mem net h,
   fun _ _ _ rows h => networkPhase_preserves rows h,
   fun c xs ys => networkPhase_append net xs ys c⟩

/-- Witness for C4: a cached postcode query is served from the cache with
only a probe in the trace, even against a geocoder that always raises. -/
theorem cached_query_no_network_no_sleep_witness :
    netAttempt wNetRaise [("2000, Australia", ((3 : Int), 4))] "2000, Australia" =
      (some (3, 4), [("2000, Australia", (3, 4))], [Eff.probe "2000, Australia"]) := by
  have h := (cached_query_no_network_no_sleep wNetRaise).1
    [("2000, Australia", ((3 : Int), 4))] "2000, Australia" (by decide)
  rw [h]
  rfl

/-- C8: no geocoder exception escapes the pipeline: a run with a raising
geocoder is identical to the run in which every raising call instead
returned no result — the error is swallowed at the call boundary and the
strategy simply advances — and every run returns an output (the crash
branch of the embedding never fires). -/
theorem geocode_errors_never_escape (fmt : α → String)
    (net : String → GeoOutcome α) (cache₀ : Cache α) (data : List Row) :
    runPipeline fmt (fun q => collapseRaised (net q)) cache₀ data =
      runPipeline fmt net cache₀ data
    ∧ ∃ out, runPipeline fmt net cache₀ data = some out := by
  constructor
  · simp only [runPipeline]
    rw [networkPhase_collapse net (partitionAux cache₀ data 0).2 cache₀]
  · obtain ⟨out, hout, _⟩ := runPipeline_spec fmt net cache₀ data
    exact ⟨out, hout⟩

/-- C5: every run returns an output whose enriched list has exactly the
input's length; the j-th output row is the j-th input row — fields
copied, full address dropped — with its single coordinate pair attached;
and every attached pair is fully present or fully absent. -/
theorem output_row_per_input_row (fmt : α → String)
    (net : String → GeoOutcome α) (cache₀ : Cache α) (data : List Row) :
    ∃ out, runPipeline fmt net cache₀ data = some out ∧
      out.enriched.length = data.length ∧
      out.results.length = data.length ∧
      (∀ (j : Nat) (r : Row), data[j]? = some r → ∃ p : Option α × Option α,
        out.results[j]? = some p ∧
        out.enriched[j]? = some (attachRow r p.1 p.2)) ∧
      (∀ p ∈ out.results, p.1 = none ↔ p.2 = none) := by
  obtain ⟨out, hout, hlen, henr, _, _, _, _, hidx⟩ :=
    runPipeline_spec fmt net cache₀ data
  refine ⟨out, hout, ?_, hlen, ?_, ?_⟩
  · rw [henr, List.length_zipWith, hlen]
    exact Nat.min_self _
  · intro j r hjr
    rcases hpr : cacheProbe cache₀ r with _ | c
    · obtain ⟨res, _, hres⟩ := (hidx j r hjr).2 hpr
      refine ⟨toPair res, hres, ?_⟩
      rw [henr, List.getElem?_zipWith, hjr, hres]
    · have hres := (hidx j r hjr).1 c hpr
      refine ⟨(some c.1, some c.2), hres, ?_⟩
      rw [henr, List.getElem?_zipWith, hjr, hres]
  · intro p hp
    obtain ⟨j, hj⟩ := List.mem_iff_getElem?.mp hp
    have hjlt := (List.getElem?_eq_some_iff.mp hj).1
    rw [hlen] at hjlt
    have hdj : data[j]? = some data[j] := List.getElem?_eq_getElem hjlt
    rcases hpr : cacheProbe cache₀ data[j] with _ | c
    · obtain ⟨res, _, hres⟩ := (hidx j _ hdj).2 hpr
      rw [hj] at hres
      obtain rfl := Option.some.inj hres
      cases res with
      | none => simp [toPair]
      | some cc => simp [toPair]
    · have hres := (hidx j _ hdj).1 c hpr
      rw [hj] at hres
      obtain rfl := Option.some.inj hres
      simp

/-- C10: when more than one of a record's candidates is cache-resident,
the partition phase takes the earliest one in priority order: if
candidate j is in the loaded cache and candidates 0..j-1 are not, the
record's cache_results entry is exactly candidate j's cached value. -/
theorem partition_takes_earliest_candidate (cache : Cache α)
    (data : List Row) (i : Nat) (r : Row) (hir : data[i]? = some r)
    (j : Nat) (hj : j < (attemptsOf r).length)
    (hmiss : ∀ k (hk : k < j),
      dictMem cache ((attemptsOf r).get ⟨k, hk.trans hj⟩) = false)
    (hhit : dictMem cache ((attemptsOf r).get ⟨j, hj⟩) = true) :
    cacheProbe cache r = dictLookup cache ((attemptsOf r).get ⟨j, hj⟩)
    ∧ (partitionAux cache data 0).1[i]? =
        some (dictLookup cache ((attemptsOf r).get ⟨j, hj⟩)) := by
  have hmain := probeAttempts_first_hit (attemptsOf r) j hj hmiss hhit
  refine ⟨hmain, ?_⟩
  rw [partitionAux_fst, List.getElem?_map, hir]
  exact congrArg some hmain

/-- Witness for C10: with the second and third candidates of wRow1 both
cached, the partition takes the second (postcode) candidate's value. -/
theorem partition_takes_earliest_candidate_witness :
    cacheProbe
        [("2000, Australia", ((7 : Int), 8)),
          ("Sampletown, NSW 2000, Australia", (9, 9))] wRow1 = some (7, 8)
    ∧ (partitionAux
        [("2000, Australia", ((7 : Int), 8)),
          ("Sampletown, NSW 2000, Australia", (9, 9))] [wRow1] 0).1[0]? =
        some (some (7, 8)) := by
  have h := partition_takes_earliest_candidate
    [("2000, Australia", ((7 : Int), 8)), ("Sampletown, NSW 2000, Australia", (9, 9))]
    [wRow1] 0 wRow1 (by rfl) 1 (by decide) (by decide) (by decide)
  exact ⟨h.1.trans (by rfl), h.2.trans (by rfl)⟩

/-- C2 is falsified by the code: a successful geocode call is not
followed by the rate-limit sleep, because the success branch breaks out
of the attempts loop before reaching line 148.  Concretely: with an empty
cache (so wRow1's full address is not cache-resident) and a geocoder that
finds that full address, the network-phase trace puts the next record's
network call directly after the successful one with no sleep in between,
so the claimed separation property fails. -/
theorem sleep_skipped_after_successful_call :
    dictMem ([] : Cache Int) wRow1.fullAddress = false
    ∧ wNetFindFirst wRow1.fullAddress = GeoOutcome.found 1 2
    ∧ (networkPhase wNetFindFirst [] [(0, wRow1), (1, wRow2)]).2.2 =
      [Eff.probe wRow1.fullAddress, Eff.netCall wRow1.fullAddress,
       Eff.probe wRow2.fullAddress, Eff.netCall wRow2.fullAddress, Eff.sleep,
       Eff.probe "3000, Australia", Eff.netCall "3000, Australia", Eff.sleep,
       Eff.probe "Othertown, VIC 3000, Australia",
       Eff.netCall "Othertown, VIC 3000, Australia", Eff.sleep]
    ∧ callsSeparated (networkPhase wNetFindFirst [] [(0, wRow1), (1, wRow2)]).2.2
        = false := by
  exact ⟨rfl, by rfl, by rfl, by rfl⟩

/-- C7: a record all of whose candidates are absent from the starting
cache and are never found by the geocoder (miss or provider error on
each) ends with the absent coordinate pair: its results entry is
(None, None), its enriched row carries no latitude/longitude, the run's
missing_coords count is exactly one more than the count over the other
records, and the cache is unchanged (still empty) at every one of the
record's candidate queries — negative results are never cached. -/
theorem all_candidates_fail_absent (fmt : α → String)
    (net : String → GeoOutcome α) (cache₀ : Cache α) (data : List Row)
    (i : Nat) (r : Row) (hir : data[i]? = some r)
    (hfail : ∀ q ∈ attemptsOf r, dictMem cache₀ q = false ∧
      ∀ a b, net q ≠ GeoOutcome.found a b) :
    ∃ out, runPipeline fmt net cache₀ data = some out ∧
      out.results[i]? = some ((none : Option α), (none : Option α)) ∧
      out.enriched[i]? = some (attachRow r none none) ∧
      out.missingCoords = (out.results.eraseIdx i).countP isMissing + 1 ∧
      ∀ q ∈ attemptsOf r, dictLookup out.finalCache q = none ∧
        dictLookup cache₀ q = none := by
  obtain ⟨out, hout, hlen, henr, hmiss, hfc, _, _, hidx⟩ :=
    runPipeline_spec fmt net cache₀ data
  have hprobe : cacheProbe cache₀ r = none :=
    probeAttempts_all_miss (attemptsOf r) (fun q hq => (hfail q hq).1)
  obtain ⟨res, hresmem, hres⟩ := (hidx i r hir).2 hprobe
  obtain ⟨r', c₁, hr1, hr2, hr3⟩ := networkPhase_mem_result _ cache₀ i res hresmem
  obtain ⟨k0, hk0, hk1, hk2, hk3⟩ := (partitionAux_snd_mem cache₀ data 0 (i, r')).mp hr1
  have hr'r : r' = r := by
    have hi : i = 0 + k0 := hk1
    have hk0i : k0 = i := by omega
    have h2 : r' = data.get ⟨k0, hk0⟩ := hk2
    obtain ⟨hi2, hget⟩ := List.getElem?_eq_some_iff.mp hir
    rw [h2]
    subst hk0i
    simp only [List.get_eq_getElem]
    exact hget
  rw [hr'r] at hr2
  have hallfail : ∀ q ∈ attemptsOf r, attemptOutcome net c₁ q = none := by
    intro q hq
    have hnm : dictMem c₁ q = false := by
      cases hmq : dictMem c₁ q with
      | false => rfl
      | true =>
          exfalso
          obtain ⟨v, hv⟩ := (dictMem_true_iff c₁ q).mp hmq
          rcases hr3 q v hv with h' | h'
          · have h0 := (hfail q hq).1
            rw [dictMem_false_iff] at h0
            rw [h0] at h'
            cases h'
          · exact (hfail q hq).2 v.1 v.2 h'
    cases hnq : net q with
    | found a b => exact absurd hnq ((hfail q hq).2 a b)
    | noResult => simp [attemptOutcome, hnm, hnq]
    | raised => simp [attemptOutcome, hnm, hnq]
  have hresnone : res = none := by
    rw [hr2, resolveAttempts_all_fail (attemptsOf r) hallfail]
  have hres0 : out.results[i]? = some ((none : Option α), (none : Option α)) := by
    rw [hresnone] at hres
    exact hres
  refine ⟨out, hout, hres0, ?_, ?_, ?_⟩
  · rw [henr, List.getElem?_zipWith, hir, hres0]
  · rw [hmiss]
    exact countP_eraseIdx_of_pos isMissing out.results i _ hres0 (by rfl)
  · intro q hq
    have h0 := (hfail q hq).1
    rw [dictMem_false_iff] at h0
    refine ⟨?_, h0⟩
    cases hfl : dictLookup out.finalCache q with
    | none => rfl
    | some v =>
        exfalso
        rw [hfc] at hfl
        rcases networkPhase_new_entry _ hfl with h' | h'
        · rw [h0] at h'
          cases h'
        · exact (hfail q hq).2 v.1 v.2 h'

/-- Witness for C7: one record, empty cache, a geocoder that always
raises: the record's coordinates are absent and the missing count is one
more than the (empty) remainder's. -/
theorem all_candidates_fail_absent_witness :
    ∃ out, runPipeline (fun _ : Int => "0") wNetRaise [] [wRow1] = some out ∧
      out.results[0]? = some ((none : Option Int), (none : Option Int)) ∧
      out.missingCoords = (out.results.eraseIdx 0).countP isMissing + 1 ∧
      dictLookup out.finalCache wRow1.fullAddress = none := by
  obtain ⟨out, h1, h2, _, h4, h5⟩ := all_candidates_fail_absent (fun _ : Int => "0")
    wNetRaise [] [wRow1] 0 wRow1 (by rfl)
    (by
      intro q hq
      exact ⟨rfl, fun a b h => GeoOutcome.noConfusion h⟩)
  exact ⟨out, h1, h2, h4, (h5 wRow1.fullAddress (by simp [attemptsOf])).1⟩

/-- C6: a query geocoded during the network phase (its netCall is in the
trace and the geocoder finds it) is cached under exactly that query
string with exactly the returned coordinate; the run flushes exactly
once, as its last effect, and the saved file is the serialization of the
full final mapping (independent of any prior file contents, as the file
is opened in write mode); reloading the saved file reproduces the final
mapping exactly; and resolving the query against the reloaded mapping is
served from cache — no network call, no sleep — whatever the second
run's geocoder would answer. -/
theorem network_result_cached_and_flushed (fmt : α → String)
    (parse : String → Option α) (net net2 : String → GeoOutcome α)
    (cache₀ : Cache α) (data : List Row) (q : String) (a b : α)
    (hrt : ∀ x, parse (fmt x) = some x) (hne : ∀ x, fmt x ≠ "")
    (hnd : (dictKeys cache₀).Nodup)
    (hq : net q = GeoOutcome.found a b) :
    ∃ out, runPipeline fmt net cache₀ data = some out ∧
      (Eff.netCall q ∈ out.trace → dictLookup out.finalCache q = some (a, b)) ∧
      (∃ t, out.trace = t ++ [Eff.flush] ∧ Eff.flush ∉ t) ∧
      out.savedFile = save_geocode_cache fmt out.finalCache ∧
      load_geocode_cache parse out.savedFile = Except.ok out.finalCache ∧
      (Eff.netCall q ∈ out.trace →
        netAttempt net2 out.finalCache q =
          (some (a, b), out.finalCache, [Eff.probe q])) := by
  obtain ⟨out, hout, _, _, _, hfc, hsf, htr, _⟩ := runPipeline_spec fmt net cache₀ data
  have hstored : Eff.netCall q ∈ out.trace →
      dictLookup out.finalCache q = some (a, b) := by
    intro hmem
    rw [htr] at hmem
    rcases List.mem_append.mp hmem with h1 | h1
    · rw [hfc]
      exact networkPhase_netCall_stored _ h1 hq
    · simp at h1
  refine ⟨out, hout, hstored, ⟨_, htr, networkPhase_no_flush _ cache₀⟩, hsf, ?_, ?_⟩
  · rw [hsf]
    refine load_save_roundtrip fmt parse hrt hne out.finalCache ?_
    rw [hfc]
    exact networkPhase_nodup_keys _ hnd
  · intro hmem
    have hl := hstored hmem
    have hm : dictMem out.finalCache q = true := by
      unfold dictMem
      rw [hl]
      rfl
    rw [netAttempt_of_mem net2 hm, hl]

/-- Witness for C6: one record, empty cache, a geocoder that finds the
record's full address: the query is cached and the flushed file reloads
to the final mapping. -/
theorem network_result_cached_and_flushed_witness :
    ∃ out, runPipeline bitFmt wNetBool [] [wRow1] = some out ∧
      (Eff.netCall wRow1.fullAddress ∈ out.trace →
        dictLookup out.finalCache wRow1.fullAddress = some (true, false)) ∧
      load_geocode_cache bitParse out.savedFile = Except.ok out.finalCache := by
  obtain ⟨out, h1, h2, _, _, h5, _⟩ := network_result_cached_and_flushed bitFmt bitParse
    wNetBool wNetBool [] [wRow1] wRow1.fullAddress true false
    (by decide) (by decide) (by decide) (by rfl)
  exact ⟨out, h1, h2, h5⟩

end Claims

end Scrape
